import Mathlib

/-!
Verification of the jenkinsctl remote resource client.

This file gives a shallow embedding, over `List Char` strings and `List Nat`
byte buffers, of the core operations of the program:

* `Tree.build_path` (src/jenkins.rs): prepending `job/<component>/` markers for
  every path component of a job path, where components are computed the way
  Rust's `std::path::Path::iter` computes them on Unix;
* `BuildParam.from_str` (src/args.rs): the build-number / build-range parser;
* `Jenkins.get_json_data` (src/jenkins.rs): the response collector, with its
  404 check and its frame-draining loop;
* `Jenkins.get_console_log` (src/jenkins.rs) and the `--follow` polling loop
  of `JobAction::Build` (src/main.rs): the console-log follower;
* `rec_walk` (src/main.rs): the recursive flattening of the folder hierarchy,
  with the server's namespace modelled as a finite tree whose folder queries
  return exactly the children of the queried node;
* `Jenkins.send_request` (src/jenkins.rs): the Authorization / Host header
  construction, with the base64 engine modelled bit by bit.

All definitions are executable; theorems about them follow at the end of the
file.
-/

namespace Jenkinsctl

/-- Shorthand used throughout: the characters of a Lean string literal. -/
def strOf (s : String) : List Char := s.data

/-! ## Generic string utilities (models of the Rust `str` methods used) -/

/-- Model of Rust `str::split_once(c)`: splits at the first occurrence of the
character `c`, returning the parts before and after it, or `none` if `c` does
not occur. -/
def splitOnceChar (c : Char) : List Char → Option (List Char × List Char)
  | [] => none
  | x :: rest =>
    if x = c then some ([], rest)
    else (splitOnceChar c rest).map (fun p => (x :: p.1, p.2))

/-- Model of Rust `str::rsplit_once(c)`: splits at the last occurrence of `c`. -/
def rsplitOnceChar (c : Char) (s : List Char) : Option (List Char × List Char) :=
  (splitOnceChar c s.reverse).map (fun p => (p.2.reverse, p.1.reverse))

/-- Model of Rust `str::contains(pat)` for a literal pattern: `true` exactly
when `pat` occurs as a contiguous substring. -/
def containsSub (pat : List Char) : List Char → Bool
  | [] => pat.isEmpty
  | c :: rest => decide (pat <+: (c :: rest)) || containsSub pat rest

/-- Number of starting positions at which `pat` occurs as a contiguous
substring (for a non-empty `pat` this is the number of its occurrences). -/
def countOcc (pat : List Char) : List Char → Nat
  | [] => 0
  | c :: rest => (if pat <+: (c :: rest) then 1 else 0) + countOcc pat rest

/-- Decimal value of a digit string (most significant digit first). -/
def digitVal (s : List Char) : Nat :=
  s.foldl (fun a c => a * 10 + (c.toNat - 48)) 0

/-- Shared digit-parsing core of `parseU64`: requires a non-empty all-digit
string whose value fits in 64 bits. -/
def parseU64Digits (s : List Char) : Option Nat :=
  if s = [] then none
  else if s.all Char.isDigit then
    if digitVal s < 2 ^ 64 then some (digitVal s) else none
  else none

/-- Model of Rust `u64::from_str`: an optional leading `+` sign followed by at
least one decimal digit, failing on any other character and on overflow. -/
def parseU64 (s : List Char) : Option Nat :=
  if s.head? = some '+' then parseU64Digits s.tail else parseU64Digits s

/-- Splits a character list at every `/`, keeping empty pieces, so that the
result always has one more piece than there are `/` characters. -/
def splitSlash : List Char → List (List Char)
  | [] => [[]]
  | c :: rest =>
    if c = '/' then [] :: splitSlash rest
    else
      match splitSlash rest with
      | [] => [[c]]
      | s :: ss => (c :: s) :: ss

/-- Model of the component iteration of Rust `std::path::Path::iter` on Unix,
as used by `Tree::build_path` (src/jenkins.rs:28-31): pieces between `/`
separators, with empty pieces dropped, `.` pieces dropped except in leading
position, a leading `/` contributing a root component `"/"`, and `..` kept. -/
def rustComponents (s : List Char) : List (List Char) :=
  let parts := splitSlash s
  let kept := parts.filter (fun t => decide (t ≠ [] ∧ t ≠ ['.']))
  if s.head? = some '/' then ['/'] :: kept
  else if parts.head? = some ['.'] then ['.'] :: kept
  else kept

/-- Joins segments with a single `/` between consecutive segments: the
`slash-separated path` built from a segment list. -/
def joinSlash : List (List Char) → List Char
  | [] => []
  | [s] => s
  | s :: rest => s ++ '/' :: joinSlash rest

/-! ## PathBuilder: `Tree` and `Tree::build_path` (src/jenkins.rs:17-40) -/

/-- The `Tree` struct of src/jenkins.rs: a query string under construction. -/
structure Tree where
  query : List Char

/-- `Tree::new` (src/jenkins.rs:22-24). -/
def Tree.new (query : List Char) : Tree := ⟨query⟩

/-- `Tree::build_path` (src/jenkins.rs:26-39): collects the path components of
`path`, reverses them, and for each component in the reversed order inserts
`job/<component>/` at position 0 of the query string. -/
def Tree.build_path (t : Tree) (path : List Char) : Tree :=
  let job_path := (rustComponents path).reverse
  ⟨job_path.foldl (fun q component => (strOf "job/" ++ component ++ ['/']) ++ q) t.query⟩

/-! ## BuildSpec parser: `BuildParam::from_str` (src/args.rs:263-286) -/

/-- The `BuildParam` enum of src/args.rs:263-266. -/
inductive BuildParam where
  | Range (start stop : Nat)
  | Once (n : Nat)
deriving DecidableEq

/-- `BuildParam::from_str` (src/args.rs:271-285).  The guarded `unwrap()`
calls on `split_once`/`rsplit_once` are modelled as `Option` matches; they are
unreachable because each branch's guard guarantees the separator occurs. -/
def BuildParam.from_str (s : List Char) : Option BuildParam :=
  if containsSub (strOf "..") s && !containsSub (strOf "..=") s then
    match splitOnceChar '.' s with
    | none => none
    | some (a, _) =>
      match parseU64 a with
      | none => none
      | some start =>
        match rsplitOnceChar '.' s with
        | none => none
        | some (_, b) =>
          match parseU64 b with
          | none => none
          | some stop => some (.Range start stop)
  else if containsSub (strOf "..=") s then
    match splitOnceChar '.' s with
    | none => none
    | some (a, _) =>
      match parseU64 a with
      | none => none
      | some start =>
        match rsplitOnceChar '=' s with
        | none => none
        | some (_, b) =>
          match parseU64 b with
          | none => none
          | some stop => some (.Range start (stop + 1))
  else (parseU64 s).map BuildParam.Once

/-- The `end_exclusive > start` invariant the specification states for
`Range` values (`Once` values are unconstrained). -/
def BuildParam.rangeInvariant : BuildParam → Prop
  | .Range start stop => start < stop
  | .Once _ => True

/-! ## ResponseCollector: `Jenkins::get_json_data` (src/jenkins.rs:131-151)

A response body is a list of frames; each frame either fails to arrive
(`Except.error`, the `next?`/`frame()?` failure) or arrives and optionally
carries data (`data_ref()` is `None` for trailer frames, which the drain loop
skips). -/

/-- One body frame as seen by the drain loops of src/jenkins.rs. -/
def Frame : Type := Except Unit (Option (List Nat))

/-- The frame-draining `while` loop shared by `get_json_data`
(src/jenkins.rs:142-147) and `get_console_log` (src/jenkins.rs:176-181):
appends every data chunk, in arrival order, to one contiguous buffer, and
fails if any frame read fails. -/
def drainFrames : List Frame → Option (List Nat)
  | [] => some []
  | .error _ :: _ => none
  | .ok none :: rest => drainFrames rest
  | .ok (some chunk) :: rest => (drainFrames rest).map (fun buf => chunk ++ buf)

/-- The two failure kinds of the collector: the dedicated 404 error
(src/jenkins.rs:135-137) and a mid-stream transfer failure (the `?` on
`next`/`write_all` in src/jenkins.rs:142-148). -/
inductive CollectErr where
  | notFound
  | transferErr
deriving DecidableEq

/-- `Jenkins::get_json_data` (src/jenkins.rs:131-151) for a response with the
given status code and body frames: fails with `notFound` when the status is
404, otherwise drains all frames into one buffer. -/
def get_json_data (status : Nat) (frames : List Frame) : Except CollectErr (List Nat) :=
  if status = 404 then .error .notFound
  else
    match drainFrames frames with
    | none => .error .transferErr
    | some buf => .ok buf

/-! ## LogFollower: `Jenkins::get_console_log` (src/jenkins.rs:153-190) and
the `--follow` loop of `JobAction::Build` (src/main.rs:412-433)

Two models at two abstraction levels.

For the loop invariants (claim about ordering/idempotence) the server is
abstracted by the semantics of Jenkins `progressiveText`: at each poll the
server holds the current full console text `log`; a request with query
parameter `start = offset` answers with body `log.drop offset`, response
header `x-text-size = log.length`, and the `x-more-data` header present
exactly when the build is still producing output.

For the error/absent-header analysis the function is modelled over a record
of everything it inspects, including the failure points. -/

/-- What one successful call of `get_console_log` does, seen from the
`--follow` loop: either the `x-more-data` header is present and
`Some((body, x-text-size))` is returned (src/jenkins.rs:189), or it is absent
and the final body is printed inside the function itself before `None` is
returned (src/jenkins.rs:184-187). -/
inductive PollResult where
  | progress (data : List Nat) (offset : Nat)
  | finished (printed : List Nat)
deriving DecidableEq

/-- `Jenkins::get_console_log` against a server whose current full console
text is `log` and whose `x-more-data` header is present iff `more`, polled
with query parameter `start`: the body is `log.drop start` and the
`x-text-size` header is `log.length`. -/
def get_console_log (log : List Nat) (more : Bool) (start : Nat) : PollResult :=
  if more then .progress (log.drop start) log.length
  else .finished (log.drop start)

/-- The `--follow` loop of `JobAction::Build` (src/main.rs:413-432) run
against a sequence of server states `(log, more)`, starting at offset `o`.
Returns, per iteration, the offset the poll was issued with and the fragment
emitted by that iteration (`print!` in src/main.rs:424 for a non-empty
returned body, `print!` in src/jenkins.rs:185 for the final fragment).  When
the body is non-empty the loop advances its offset to the returned
`x-text-size` (src/main.rs:425); when `None` is returned it breaks. -/
def followRun : Nat → List (List Nat × Bool) → List (Nat × List Nat)
  | _, [] => []
  | o, (log, more) :: rest =>
    match get_console_log log more o with
    | .progress data current =>
      if data = [] then (o, []) :: followRun o rest
      else (o, data) :: followRun current rest
    | .finished printed => [(o, printed)]

/-- The poll sequence of a follow session over successive server snapshots:
every poll but the last finds `x-more-data` present, the last does not. -/
def pollsOf : List (List Nat) → List (List Nat × Bool)
  | [] => []
  | [l] => [(l, false)]
  | l :: rest => (l, true) :: pollsOf rest

/-- The last server snapshot: the complete console log of the session. -/
def finalLog : List (List Nat) → List Nat
  | [] => []
  | [l] => l
  | _ :: rest => finalLog rest

/-- Boolean check that successive snapshots extend each other: each snapshot
is a prefix of the next one (the log only grows). -/
def prefixChain : List (List Nat) → Bool
  | [] => true
  | [_] => true
  | a :: b :: rest => a.isPrefixOf b && prefixChain (b :: rest)

/-- Boolean check that a list of numbers is non-decreasing. -/
def nondecreasing : List Nat → Bool
  | [] => true
  | [_] => true
  | a :: b :: rest => decide (a ≤ b) && nondecreasing (b :: rest)

/-- Everything `get_console_log` inspects on one poll, failure points
included: whether the URL parsed (src/jenkins.rs:157-159), whether the
request was sent successfully (src/jenkins.rs:160-162), the raw `x-text-size`
header if present (src/jenkins.rs:164-167), the body frames, and whether
`x-more-data` is present (src/jenkins.rs:184). -/
structure LogPollInput where
  urlOk : Bool
  sendOk : Bool
  textSizeHeader : Option (List Char)
  frames : List Frame
  moreData : Bool

/-- Model of `HeaderValue::to_str().ok()?.parse::<usize>().ok()?`
(src/jenkins.rs:168-171): the header value must be a decimal number. -/
def parseHeaderNat (raw : List Char) : Option Nat := parseU64 raw

/-- The four observable outcomes of one `get_console_log` call
(src/jenkins.rs:153-190): the process aborts on the `unwrap()` of a missing
`x-text-size` header; `None` is returned on every `.ok()?` failure path;
`None` is returned after printing the final fragment when `x-more-data` is
absent; otherwise `Some((body, offset))` is returned. -/
inductive LogOutcome where
  | panicked
  | failed
  | finished (printed : List Nat)
  | progress (data : List Nat) (offset : Nat)
deriving DecidableEq

/-- `Jenkins::get_console_log` (src/jenkins.rs:153-190) over a full
`LogPollInput`, reproducing the order of its failure points: URL parse, send,
`x-text-size` lookup (`unwrap()`: a missing header aborts), header value
parse, frame drain, and finally the `x-more-data` check. -/
def get_console_log_outcome (r : LogPollInput) : LogOutcome :=
  if !r.urlOk then .failed
  else if !r.sendOk then .failed
  else
    match r.textSizeHeader with
    | none => .panicked
    | some raw =>
      match parseHeaderNat raw with
      | none => .failed
      | some offset =>
        match drainFrames r.frames with
        | none => .failed
        | some data =>
          if !r.moreData then .finished data
          else .progress data offset

/-! ## HierarchyWalker: `rec_walk` (src/main.rs:219-260)

The server namespace is modelled as a finite tree: one node per job, carrying
the `_class` discriminator, `fullName` and `name` fields of the corresponding
`Jobs` record (src/job.rs), and its children.  The folder query issued by
`rec_walk` for path `inner_job` is modelled as returning exactly the children
of the queried node. -/

/-- One node of the server's job namespace. -/
inductive NS where
  | mk (cls fullName name : List Char) (children : List NS)

/-- The `_class` discriminator string of a node. -/
def NS.cls : NS → List Char
  | .mk c _ _ _ => c

/-- The `fullName` field of a node. -/
def NS.fullName : NS → List Char
  | .mk _ f _ _ => f

/-- The `name` field of a node. -/
def NS.name : NS → List Char
  | .mk _ _ n _ => n

/-- The children of a node (what the folder query for this node returns). -/
def NS.children : NS → List NS
  | .mk _ _ _ cs => cs

/-- `job.class.rsplit_once('.').unwrap().1.to_lowercase()`
(src/main.rs:243, 374): the part of the `_class` string after its last dot,
lowercased.  The `unwrap()` aborts on a dot-less class string; such strings
are outside the modelled domain and are totalised to the whole string. -/
def classOf (cls : List Char) : List Char :=
  match rsplitOnceChar '.' cls with
  | some (_, tail) => tail.map Char.toLower
  | none => cls.map Char.toLower

/-- One output token of the walk: a breadcrumb folder name printed with
`print!("... => ")` (src/main.rs:247) or a leaf job name printed with
`println!` (src/main.rs:256). -/
inductive OutTok where
  | crumb (s : List Char)
  | leafName (s : List Char)
deriving DecidableEq

/-- The breadcrumb tokens printed for one child entry (src/main.rs:238-251):
the components of the child's `fullName` minus the last one, each printed
unless the child's lowercased class suffix is `folder`. -/
def crumbsFor (child : NS) : List OutTok :=
  let job_path := (rustComponents child.fullName).dropLast
  if classOf child.cls ≠ strOf "folder" then job_path.map OutTok.crumb else []

mutual
/-- `rec_walk` (src/main.rs:219-260) on the subtree of the current job: when
the (already lowercased) class is `folder` the accumulated path is extended
by `/job/<job_name>`, the folder's children are fetched, and each child is
processed in order; otherwise the job name is printed as a leaf. -/
def rec_walk : NS → List Char → List Char → List Char → List OutTok
  | .mk _ _ _ children, cls, job_name, inner_job =>
    if cls = strOf "folder" then
      rec_walk_children children (inner_job ++ strOf "/job/" ++ job_name)
    else [.leafName job_name]

/-- The `for job in nested_job_info.jobs` loop of `rec_walk`
(src/main.rs:237-254): for each child, print its breadcrumbs and recurse with
the child's class suffix, `name` field, and the extended accumulated path. -/
def rec_walk_children : List NS → List Char → List OutTok
  | [], _ => []
  | child :: rest, inner_job =>
    crumbsFor child
      ++ rec_walk child (classOf child.cls) child.name inner_job
      ++ rec_walk_children rest inner_job
end

/-- The `JobAction::List` caller (src/main.rs:373-378): for every top-level
job, call `rec_walk` with its class suffix, its `fullName`, and an empty
accumulated path. -/
def listWalk (roots : List NS) : List OutTok :=
  (roots.map (fun n => rec_walk n (classOf n.cls) n.fullName [])).flatten

mutual
/-- Height of a namespace node: 1 plus the maximal height of its children. -/
def NS.height : NS → Nat
  | .mk _ _ _ children => 1 + heightList children

/-- Maximal height of a list of namespace nodes. -/
def heightList : List NS → Nat
  | [] => 0
  | n :: rest => max n.height (heightList rest)
end

mutual
/-- Fuel-indexed variant of `rec_walk`, modelling the unbounded recursion of
the source: each descent into a node consumes one unit of fuel and the walk
reports `none` when fuel runs out.  Termination of the source traversal is
the statement that enough fuel always exists. -/
def rec_walk_fuel : Nat → NS → List Char → List Char → List Char → Option (List OutTok)
  | 0, _, _, _, _ => none
  | fuel + 1, node, cls, job_name, inner_job =>
    if cls = strOf "folder" then
      rec_walk_children_fuel fuel node.children (inner_job ++ strOf "/job/" ++ job_name)
    else some [.leafName job_name]

/-- Fuel-indexed variant of `rec_walk_children`. -/
def rec_walk_children_fuel : Nat → List NS → List Char → Option (List OutTok)
  | _, [], _ => some []
  | fuel, child :: rest, inner_job => do
    let a ← rec_walk_fuel fuel child (classOf child.cls) child.name inner_job
    let b ← rec_walk_children_fuel fuel rest inner_job
    return crumbsFor child ++ a ++ b
end

/-! ## Transport: `Jenkins::send_request` (src/jenkins.rs:81-129) -/

/-- The URL-safe base64 alphabet used by
`base64::engine::general_purpose::URL_SAFE` (src/jenkins.rs:110): `-` and `_`
at sextet values 62 and 63. -/
def b64UrlAlphabet : List Char :=
  strOf "ABCDEFGHIJKLMNOPQRSTUVWXYZabcdefghijklmnopqrstuvwxyz0123456789-_"

/-- The standard base64 alphabet of RFC 4648 §4, the one HTTP Basic
authentication uses: `+` and `/` at sextet values 62 and 63. -/
def b64StdAlphabet : List Char :=
  strOf "ABCDEFGHIJKLMNOPQRSTUVWXYZabcdefghijklmnopqrstuvwxyz0123456789+/"

/-- Base64 encoding of a byte list over the given alphabet, with `=`
padding: 3-byte groups become 4 sextet characters; a 2-byte tail becomes 3
characters and one `=`; a 1-byte tail becomes 2 characters and `==`. -/
def base64With (alpha : List Char) : List Nat → List Char
  | [] => []
  | [b1] =>
    [alpha.getD (b1 / 4) 'A', alpha.getD (b1 % 4 * 16) 'A', '=', '=']
  | [b1, b2] =>
    [alpha.getD (b1 / 4) 'A', alpha.getD (b1 % 4 * 16 + b2 / 16) 'A',
     alpha.getD (b2 % 16 * 4) 'A', '=']
  | b1 :: b2 :: b3 :: rest =>
    alpha.getD (b1 / 4) 'A' :: alpha.getD (b1 % 4 * 16 + b2 / 16) 'A'
      :: alpha.getD (b2 % 16 * 4 + b3 / 64) 'A' :: alpha.getD (b3 % 64) 'A'
      :: base64With alpha rest

/-- The request a `send_request` call builds, as far as headers are
concerned. -/
structure BuiltRequest where
  hostHeader : List Char
  authHeader : List Char

/-- The header construction of `Jenkins::send_request` (src/jenkins.rs:87-113):
`port` defaults to 443 (src/jenkins.rs:88), the `Host` header is
`host:port` (src/jenkins.rs:105), and the `Authorization` header is
`Basic` followed by the URL_SAFE base64 encoding of the bytes of
`user:pswd` (src/jenkins.rs:106-112). -/
def send_request (user pswd : List Nat) (host : List Char) (port : Option Nat) : BuiltRequest :=
  let p := port.getD 443
  { hostHeader := host ++ ':' :: Nat.toDigits 10 p
    authHeader := strOf "Basic " ++ base64With b64UrlAlphabet (user ++ 58 :: pswd) }

/-- The Authorization header value claimed by the specification (standard
Basic-auth base64 alphabet), written from the spec's words for comparison
with `send_request`. -/
def specAuthHeader (user pswd : List Nat) : List Char :=
  strOf "Basic " ++ base64With b64StdAlphabet (user ++ 58 :: pswd)

/-! ## Concrete test data -/

/-- The bytes of an ASCII string. -/
def bytesOf (s : String) : List Nat := s.data.map Char.toNat

/-- Leaf job `A` inside folder `F`. -/
def jobA : NS := .mk (strOf "hudson.model.FreeStyleProject") (strOf "F/A") (strOf "A") []

/-- Leaf job `B` inside folder `F`. -/
def jobB : NS := .mk (strOf "hudson.model.FreeStyleProject") (strOf "F/B") (strOf "B") []

/-- Leaf job `C` inside nested folder `F/G`. -/
def jobC : NS := .mk (strOf "hudson.model.FreeStyleProject") (strOf "F/G/C") (strOf "C") []

/-- Nested folder `G` inside folder `F`, containing leaf `C`. -/
def folderG : NS :=
  .mk (strOf "com.cloudbees.hudson.plugins.folder.Folder") (strOf "F/G") (strOf "G") [jobC]

/-- Top-level folder `F` containing leaves `A`, `B` and nested folder `G`. -/
def folderF : NS :=
  .mk (strOf "com.cloudbees.hudson.plugins.folder.Folder") (strOf "F") (strOf "F")
    [jobA, jobB, folderG]

/-! ## Theorems -/

/-- Claim C4: `BuildParam::from_str` parses `"5"` to `Once 5`, `"1..5"` to
`Range 1 5`, `"1..=5"` to `Range 1 6` (the inclusive `..=` literal is
effectively given precedence over the plain `..` check, since the exclusive
branch explicitly excludes strings containing `..=`), and fails on `""`,
`"abc"` and `"5.."`. -/
theorem buildParam_from_str_examples :
    BuildParam.from_str (strOf "5") = some (.Once 5)
      ∧ BuildParam.from_str (strOf "1..5") = some (.Range 1 5)
      ∧ BuildParam.from_str (strOf "1..=5") = some (.Range 1 6)
      ∧ BuildParam.from_str (strOf "") = none
      ∧ BuildParam.from_str (strOf "abc") = none
      ∧ BuildParam.from_str (strOf "5..") = none := by
  decide

/-- Claim C5: on a namespace whose root holds folder `F` with leaves `A`, `B`
and nested folder `G` containing leaf `C`, the job listing walk emits the
depth-first flattened sequence `A`, `B`, `C` in that order, each leaf preceded
by its breadcrumb of folder-typed ancestor names in root-to-leaf order
(`F` for `A`, `F` for `B`, `F` then `G` for `C`). -/
theorem rec_walk_example :
    listWalk [folderF] =
      [.crumb (strOf "F"), .leafName (strOf "A"),
       .crumb (strOf "F"), .leafName (strOf "B"),
       .crumb (strOf "F"), .crumb (strOf "G"), .leafName (strOf "C")] := by
  decide

/-- Claim C2: collecting a response fails with `notFound` exactly when the
status is 404, and a status-200 response whose body arrives as the frames
`"ab"`, `"cd"`, `"ef"` collects to the bytes of `"abcdef"`. -/
theorem get_json_data_notFound_iff_404 :
    (∀ (status : Nat) (frames : List Frame),
        get_json_data status frames = .error .notFound ↔ status = 404)
      ∧ get_json_data 200
          [Except.ok (some (bytesOf "ab")), Except.ok (some (bytesOf "cd")),
           Except.ok (some (bytesOf "ef"))]
          = .ok (bytesOf "abcdef") := by
  refine ⟨fun status frames => ?_, rfl⟩
  constructor
  · intro h
    by_contra hne
    rw [get_json_data, if_neg hne] at h
    cases hdf : drainFrames frames <;> simp [hdf] at h
  · intro h
    rw [get_json_data, if_pos h]

/-- Claim C7 counterexample: converting the path `"."` does not fail and does
produce a URL prefix: the query becomes `job/./` followed by the original
query, contradicting the claim that `.`-only input is rejected with an error
and produces no prefix. -/
theorem build_path_dot_counterexample :
    ((Tree.new []).build_path (strOf ".")).query = strOf "job/./"
      ∧ ((Tree.new []).build_path (strOf ".")).query ≠ [] := by
  decide

/-- Claim C7 as amended: path conversion is total and never signals an error;
an empty input leaves the query unchanged (no prefix is produced), while the
inputs `.` and `..` produce the prefixes `job/./` and `job/../`. -/
theorem build_path_empty_and_dot :
    ∀ q : List Char,
      ((Tree.new q).build_path []).query = q
        ∧ ((Tree.new q).build_path (strOf ".")).query = strOf "job/./" ++ q
        ∧ ((Tree.new q).build_path (strOf "..")).query = strOf "job/../" ++ q :=
  fun _ => ⟨rfl, rfl, rfl⟩

/-- Claim C8 counterexample: the syntactically well-formed literal `"1..1"`
parses to `Range 1 1`, whose `end_exclusive > start` invariant fails (the
parser performs no ordering validation). -/
theorem buildParam_range_invariant_counterexample :
    BuildParam.from_str (strOf "1..1") = some (.Range 1 1)
      ∧ ¬ (BuildParam.Range 1 1).rangeInvariant := by
  constructor
  · decide
  · simp [BuildParam.rangeInvariant]

/-- Claim C9 counterexample: for user `~` and token `~` the Authorization
header built by `send_request` (URL_SAFE base64 engine) differs from the
standard-alphabet Basic-auth value the claim states: the sextet 62 in `~:~`
encodes as `-` rather than `+`. -/
theorem send_request_auth_alphabet_counterexample :
    (send_request (bytesOf "~") (bytesOf "~") (strOf "jenkins.example") none).authHeader
      ≠ specAuthHeader (bytesOf "~") (bytesOf "~") := by
  decide

/-- Claim C9 as amended: every request carries an Authorization header equal
to `Basic` followed by the base64 encoding of `user:token` over the URL-safe
alphabet (`-`/`_` at sextets 62/63, `=` padding), and a Host header
`host:port` with the port defaulting to 443. -/
theorem send_request_headers :
    ∀ (user pswd : List Nat) (host : List Char) (port : Option Nat),
      (send_request user pswd host port).authHeader
          = strOf "Basic " ++ base64With b64UrlAlphabet (user ++ 58 :: pswd)
        ∧ (send_request user pswd host port).hostHeader
          = host ++ ':' :: Nat.toDigits 10 (port.getD 443) :=
  fun _ _ _ _ => ⟨rfl, rfl⟩

/-- A poll whose response carries an `x-text-size` header never reaches the
`unwrap()` abort, whatever happens afterwards. -/
theorem get_console_log_outcome_some_ne_panicked (raw : List Char) (f : List Frame) (m : Bool) :
    get_console_log_outcome ⟨true, true, some raw, f, m⟩ ≠ .panicked := by
  cases hp : parseHeaderNat raw with
  | none => simp [get_console_log_outcome, hp]
  | some off =>
    cases hd : drainFrames f with
    | none => simp [get_console_log_outcome, hp, hd]
    | some data => cases m <;> simp [get_console_log_outcome, hp, hd]

/-- Claim C10: `get_console_log` aborts the process exactly when the response
(successfully obtained: URL parsed, request sent) lacks the `x-text-size`
header, while a bad URL or transport failure, an unparsable `x-text-size`
value, and a frame read failure each make it return `None` instead. -/
theorem get_console_log_panic_iff_missing_header :
    ∀ r : LogPollInput,
      (get_console_log_outcome r = .panicked ↔
          r.urlOk = true ∧ r.sendOk = true ∧ r.textSizeHeader = none)
        ∧ ((r.urlOk = false ∨ r.sendOk = false) → get_console_log_outcome r = .failed)
        ∧ (∀ raw, r.textSizeHeader = some raw → parseHeaderNat raw = none →
            r.urlOk = true → r.sendOk = true → get_console_log_outcome r = .failed)
        ∧ (∀ raw off, r.textSizeHeader = some raw → parseHeaderNat raw = some off →
            drainFrames r.frames = none →
            r.urlOk = true → r.sendOk = true → get_console_log_outcome r = .failed) := by
  rintro ⟨u, s, h, f, m⟩
  refine ⟨⟨?_, ?_⟩, ?_, ?_, ?_⟩
  · intro hp
    cases u
    · exact absurd hp (by exact fun hc => LogOutcome.noConfusion hc)
    · cases s
      · exact absurd hp (by exact fun hc => LogOutcome.noConfusion hc)
      · cases h with
        | none => exact ⟨rfl, rfl, rfl⟩
        | some raw => exact absurd hp (get_console_log_outcome_some_ne_panicked raw f m)
  · rintro ⟨hu, hs, hh⟩
    subst hu; subst hs; subst hh
    rfl
  · rintro (hu | hs)
    · subst hu; rfl
    · subst hs; cases u <;> rfl
  · intro raw hh hp hu hs
    subst hh; subst hu; subst hs
    simp [get_console_log_outcome, hp]
  · intro raw off hh hp hd hu hs
    subst hh; subst hu; subst hs
    simp [get_console_log_outcome, hp, hd]

/-- Bridge from the executable prefix test to the `IsPrefix` relation. -/
theorem isPrefixOf_eq_true_iff (l₁ l₂ : List Nat) : l₁.isPrefixOf l₂ = true ↔ l₁ <+: l₂ :=
  List.isPrefixOf_iff_prefix

/-- The head snapshot of a growing log session is a prefix of its final
snapshot. -/
theorem head_prefix_finalLog :
    ∀ (rest : List (List Nat)) (l : List Nat), prefixChain (l :: rest) = true →
      l <+: finalLog (l :: rest) := by
  intro rest
  induction rest with
  | nil => intro l _; exact List.prefix_rfl
  | cons b rest ih =>
    intro l h
    rw [prefixChain, Bool.and_eq_true] at h
    exact ((isPrefixOf_eq_true_iff l b).mp h.1).trans (ih b h.2)

/-- A non-empty poll sequence. -/
theorem pollsOf_ne_nil (l : List Nat) (rest : List (List Nat)) :
    pollsOf (l :: rest) ≠ [] := by
  cases rest <;> simp [pollsOf]

/-- Unfolding `pollsOf` on a sequence of at least two snapshots. -/
theorem pollsOf_cons_cons (l l2 : List Nat) (rest : List (List Nat)) :
    pollsOf (l :: l2 :: rest) = (l, true) :: pollsOf (l2 :: rest) := rfl

/-- One follow-loop iteration on a poll that finds `x-more-data` present. -/
theorem followRun_cons_true (o : Nat) (log : List Nat) (rest : List (List Nat × Bool)) :
    followRun o ((log, true) :: rest) =
      if log.drop o = [] then (o, []) :: followRun o rest
      else (o, log.drop o) :: followRun log.length rest := rfl

/-- The final follow-loop iteration, on a poll that finds `x-more-data`
absent: the final fragment is emitted exactly once and the loop stops. -/
theorem followRun_cons_false (o : Nat) (log : List Nat) (rest : List (List Nat × Bool)) :
    followRun o ((log, false) :: rest) = [(o, log.drop o)] := rfl

/-- The first poll of a follow run is issued at the starting offset. -/
theorem followRun_head_fst (o : Nat) (p : List Nat × Bool) (ps : List (List Nat × Bool)) :
    ((followRun o (p :: ps)).map Prod.fst).head? = some o := by
  obtain ⟨log, more⟩ := p
  cases more
  · rw [followRun_cons_false]
    rfl
  · rw [followRun_cons_true]
    by_cases hb : log.drop o = [] <;> simp [hb]

/-- Extending a non-decreasing offset list on the left. -/
theorem nondecreasing_cons (a : Nat) (xs : List Nat)
    (h1 : ∀ b, xs.head? = some b → a ≤ b) (h2 : nondecreasing xs = true) :
    nondecreasing (a :: xs) = true := by
  cases xs with
  | nil => rfl
  | cons b rest =>
    rw [nondecreasing, Bool.and_eq_true]
    exact ⟨decide_eq_true (h1 b rfl), h2⟩

/-- Across a follow run over growing snapshots, the offsets used by the
successive polls are non-decreasing. -/
theorem followRun_offsets_nondecreasing :
    ∀ (snaps : List (List Nat)) (o : Nat), prefixChain snaps = true →
      (∀ l rest, snaps = l :: rest → o ≤ l.length) →
      nondecreasing ((followRun o (pollsOf snaps)).map Prod.fst) = true := by
  intro snaps
  induction snaps with
  | nil => intro o _ _; rfl
  | cons l rest ih =>
    intro o hchain ho
    have hol : o ≤ l.length := ho l rest rfl
    cases rest with
    | nil => rfl
    | cons l2 rest2 =>
      rw [prefixChain, Bool.and_eq_true] at hchain
      have hll2 : l.length ≤ l2.length :=
        ((isPrefixOf_eq_true_iff l l2).mp hchain.1).length_le
      obtain ⟨p, ps, hps⟩ : ∃ p ps, pollsOf (l2 :: rest2) = p :: ps := by
        cases hpoll : pollsOf (l2 :: rest2) with
        | nil => exact absurd hpoll (pollsOf_ne_nil l2 rest2)
        | cons p ps => exact ⟨p, ps, rfl⟩
      rw [pollsOf_cons_cons, followRun_cons_true]
      by_cases hb : l.drop o = []
      · rw [if_pos hb]
        have hrec := ih o hchain.2 (fun a as h => by cases h; omega)
        rw [List.map_cons]
        refine nondecreasing_cons o _ (fun b hb2 => ?_) hrec
        rw [hps, followRun_head_fst] at hb2
        cases hb2
        exact le_refl o
      · rw [if_neg hb]
        have hrec := ih l.length hchain.2 (fun a as h => by cases h; omega)
        rw [List.map_cons]
        refine nondecreasing_cons o _ (fun b hb2 => ?_) hrec
        rw [hps, followRun_head_fst] at hb2
        cases hb2
        exact hol

/-- The concatenation of all fragments a follow run emits, started at offset
`o`, is exactly the final log from byte `o` on: no byte is duplicated or
skipped. -/
theorem followRun_flatten :
    ∀ (snaps : List (List Nat)) (o : Nat), prefixChain snaps = true →
      (∀ l rest, snaps = l :: rest → o ≤ l.length) →
      ((followRun o (pollsOf snaps)).map Prod.snd).flatten = (finalLog snaps).drop o := by
  intro snaps
  induction snaps with
  | nil => intro o _ _; simp [pollsOf, followRun, finalLog]
  | cons l rest ih =>
    intro o hchain ho
    have hol : o ≤ l.length := ho l rest rfl
    cases rest with
    | nil =>
      show ((followRun o [(l, false)]).map Prod.snd).flatten = (finalLog [l]).drop o
      rw [followRun_cons_false]
      simp [finalLog]
    | cons l2 rest2 =>
      rw [prefixChain, Bool.and_eq_true] at hchain
      have hll2 : l.length ≤ l2.length :=
        ((isPrefixOf_eq_true_iff l l2).mp hchain.1).length_le
      have hfin : finalLog (l :: l2 :: rest2) = finalLog (l2 :: rest2) := rfl
      have hpre : l <+: finalLog (l2 :: rest2) := by
        have := head_prefix_finalLog (l2 :: rest2) l
          (by rw [prefixChain, Bool.and_eq_true]; exact hchain)
        rwa [show finalLog (l :: l2 :: rest2) = finalLog (l2 :: rest2) from rfl] at this
      rw [pollsOf_cons_cons, followRun_cons_true]
      by_cases hb : l.drop o = []
      · rw [if_pos hb]
        have holen : l.length ≤ o := List.drop_eq_nil_iff.mp hb
        have hrec := ih o hchain.2 (fun a as h => by cases h; omega)
        rw [List.map_cons, List.flatten_cons, hrec, hfin]
        rfl
      · rw [if_neg hb]
        have hrec := ih l.length hchain.2 (fun a as h => by cases h; omega)
        rw [List.map_cons, List.flatten_cons, hrec, hfin]
        obtain ⟨t, ht⟩ := hpre
        rw [← ht]
        rw [List.drop_append_eq_append_drop, List.drop_length,
          List.drop_append_eq_append_drop, Nat.sub_self, List.drop_zero, List.nil_append]
        rw [show o - l.length = 0 from by omega, List.drop_zero]

/-- Claim C1: over a session of polls of one console-log resource whose
snapshots only grow (each a prefix of the next) and whose last response omits
`x-more-data`, the follow loop's offsets are non-decreasing, the
concatenation of all emitted fragments is exactly one contiguous read of the
final log from byte 0 (each byte emitted at most once, in server-offset
order, the final fragment exactly once), and a poll made at an offset equal
to the server's current size (an unchanged log) yields an empty fragment. -/
theorem console_log_follow_invariant (snaps : List (List Nat)) (log0 : List Nat)
    (hchain : prefixChain snaps = true) :
    nondecreasing ((followRun 0 (pollsOf snaps)).map Prod.fst) = true
      ∧ ((followRun 0 (pollsOf snaps)).map Prod.snd).flatten = finalLog snaps
      ∧ get_console_log log0 true log0.length = .progress [] log0.length
      ∧ get_console_log log0 false log0.length = .finished [] := by
  refine ⟨followRun_offsets_nondecreasing snaps 0 hchain (fun _ _ _ => Nat.zero_le _), ?_,
    by simp [get_console_log], by simp [get_console_log]⟩
  have := followRun_flatten snaps 0 hchain (fun _ _ _ => Nat.zero_le _)
  rwa [List.drop_zero] at this

/-- Claim C1 witness: a two-poll session over the growing log `[7]`,
`[7, 8, 9]`. -/
theorem console_log_follow_invariant_witness :
    nondecreasing ((followRun 0 (pollsOf [[7], [7, 8, 9]])).map Prod.fst) = true
      ∧ ((followRun 0 (pollsOf [[7], [7, 8, 9]])).map Prod.snd).flatten
          = finalLog [[7], [7, 8, 9]]
      ∧ get_console_log [5] true [5].length = .progress [] [5].length
      ∧ get_console_log [5] false [5].length = .finished [] :=
  console_log_follow_invariant [[7], [7, 8, 9]] [5] (by decide)

/-- A fuel budget covering a child list also covers each child and the rest
of the list, so the fuelled child loop agrees with the total one. -/
theorem rec_walk_children_fuel_eq (fuel : Nat)
    (hnode : ∀ (n : NS) (cls jn ij : List Char), NS.height n ≤ fuel →
      rec_walk_fuel fuel n cls jn ij = some (rec_walk n cls jn ij)) :
    ∀ (children : List NS) (inner_job : List Char), heightList children ≤ fuel →
      rec_walk_children_fuel fuel children inner_job
        = some (rec_walk_children children inner_job) := by
  intro children
  induction children with
  | nil => intro ij _; rw [rec_walk_children_fuel, rec_walk_children]
  | cons c rest ih =>
    intro ij hh
    rw [heightList] at hh
    have h1 : NS.height c ≤ fuel := le_trans (le_max_left _ _) hh
    have h2 : heightList rest ≤ fuel := le_trans (le_max_right _ _) hh
    rw [rec_walk_children_fuel, rec_walk_children,
      hnode c (classOf c.cls) c.name ij h1, ih ij h2]
    rfl

/-- Claim C6: on every finite namespace tree the recursive traversal
terminates: the fuelled variant of `rec_walk`, which models the source's
unbounded recursion by spending one unit of fuel per descent, returns the
total walk's answer (rather than running out) whenever the fuel is at least
the height of the tree. -/
theorem rec_walk_terminates :
    ∀ (fuel : Nat) (node : NS) (cls job_name inner_job : List Char),
      NS.height node ≤ fuel →
      rec_walk_fuel fuel node cls job_name inner_job
        = some (rec_walk node cls job_name inner_job) := by
  intro fuel
  induction fuel with
  | zero =>
    rintro ⟨cl, fn, nm, children⟩ cls jn ij h
    rw [NS.height] at h
    omega
  | succ fuel ih =>
    rintro ⟨cl, fn, nm, children⟩ cls jn ij h
    rw [NS.height] at h
    have hch : heightList children ≤ fuel := by omega
    rw [rec_walk_fuel, rec_walk]
    by_cases hf : cls = strOf "folder"
    · rw [if_pos hf, if_pos hf]
      exact rec_walk_children_fuel_eq fuel ih children _ hch
    · rw [if_neg hf, if_neg hf]

/-- Claim C6 witness: fuel 2 suffices for the height-2 folder `G`. -/
theorem rec_walk_terminates_witness :
    rec_walk_fuel 2 folderG (strOf "folder") (strOf "G") []
      = some (rec_walk folderG (strOf "folder") (strOf "G") []) :=
  rec_walk_terminates 2 folderG (strOf "folder") (strOf "G") [] (by decide)

/-- `build_path` in closed form: the reversed fold of insertions at position
0 produces the concatenation of `job/<component>/` over the components in
their original order, followed by the original query. -/
theorem build_path_eq (q p : List Char) :
    ((Tree.new q).build_path p).query
      = ((rustComponents p).map (fun c => strOf "job/" ++ c ++ ['/'])).flatten ++ q := by
  show ((rustComponents p).reverse.foldl
      (fun acc component => (strOf "job/" ++ component ++ ['/']) ++ acc) q)
    = ((rustComponents p).map (fun c => strOf "job/" ++ c ++ ['/'])).flatten ++ q
  rw [List.foldl_reverse]
  induction rustComponents p with
  | nil => rfl
  | cons c rest ih =>
    rw [List.foldr_cons, ih]
    simp [List.append_assoc]

/-- A slash-free string is a single `splitSlash` piece. -/
theorem splitSlash_no_slash : ∀ s : List Char, '/' ∉ s → splitSlash s = [s] := by
  intro s
  induction s with
  | nil => intro _; rfl
  | cons c rest ih =>
    intro h
    have hc : ¬ c = '/' := fun hc => h (hc ▸ List.mem_cons_self c rest)
    have hr : '/' ∉ rest := fun hm => h (List.mem_cons.mpr (Or.inr hm))
    rw [splitSlash, if_neg hc, ih hr]

/-- `splitSlash` splits off a slash-free piece at the first separator. -/
theorem splitSlash_append :
    ∀ (s t : List Char), '/' ∉ s → splitSlash (s ++ '/' :: t) = s :: splitSlash t := by
  intro s
  induction s with
  | nil => intro t _; simp [splitSlash]
  | cons c rest ih =>
    intro t h
    have hc : ¬ c = '/' := fun hc => h (hc ▸ List.mem_cons_self c rest)
    have hr : '/' ∉ rest := fun hm => h (List.mem_cons.mpr (Or.inr hm))
    rw [List.cons_append, splitSlash, if_neg hc, ih t hr]

/-- Unfolding `joinSlash` on at least two segments. -/
theorem joinSlash_cons_cons (s s2 : List Char) (rest : List (List Char)) :
    joinSlash (s :: s2 :: rest) = s ++ '/' :: joinSlash (s2 :: rest) := rfl

/-- `splitSlash` inverts `joinSlash` on slash-free segments. -/
theorem splitSlash_joinSlash :
    ∀ segs : List (List Char), segs ≠ [] → (∀ s ∈ segs, '/' ∉ s) →
      splitSlash (joinSlash segs) = segs := by
  intro segs
  induction segs with
  | nil => intro h _; exact absurd rfl h
  | cons s rest ih =>
    intro _ hvalid
    cases rest with
    | nil =>
      rw [joinSlash]
      exact splitSlash_no_slash s (hvalid s (List.mem_cons_self s []))
    | cons s2 rest2 =>
      rw [joinSlash_cons_cons, splitSlash_append s _ (hvalid s (List.mem_cons_self s _)),
        ih (by simp) (fun x hx => hvalid x (List.mem_cons.mpr (Or.inr hx)))]

/-- The first character of a joined non-empty first segment. -/
theorem joinSlash_head (c : Char) (s : List Char) (rest : List (List Char)) :
    (joinSlash ((c :: s) :: rest)).head? = some c := by
  cases rest <;> rfl

/-- On a non-empty list of segments that are non-empty, slash-free and not
`.`, the Rust path-component iteration of the joined path returns exactly the
segments. -/
theorem components_joinSlash (segs : List (List Char)) (hne : segs ≠ [])
    (hvalid : ∀ s ∈ segs, s ≠ [] ∧ '/' ∉ s ∧ s ≠ ['.']) :
    rustComponents (joinSlash segs) = segs := by
  obtain ⟨s, rest, rfl⟩ : ∃ s rest, segs = s :: rest := by
    cases segs with
    | nil => exact absurd rfl hne
    | cons s rest => exact ⟨s, rest, rfl⟩
  obtain ⟨c, s', rfl⟩ : ∃ c s', s = c :: s' := by
    cases s with
    | nil => exact absurd rfl (hvalid [] (List.mem_cons_self _ _)).1
    | cons c s' => exact ⟨c, s', rfl⟩
  have hsplit : splitSlash (joinSlash ((c :: s') :: rest)) = (c :: s') :: rest :=
    splitSlash_joinSlash _ (by simp) (fun x hx => (hvalid x hx).2.1)
  have hc : c ≠ '/' :=
    fun hc => (hvalid (c :: s') (List.mem_cons_self _ _)).2.1 (hc ▸ List.mem_cons_self c s')
  rw [rustComponents]
  simp only [hsplit, joinSlash_head]
  rw [if_neg (by simp [hc]), if_neg (by
    simp only [List.head?_cons, Option.some_inj]
    exact fun he => (hvalid (c :: s') (List.mem_cons_self _ _)).2.2 he)]
  exact List.filter_eq_self.mpr (fun a ha =>
    decide_eq_true ⟨(hvalid a ha).1, (hvalid a ha).2.2⟩)

/-- Lists with different heads are not prefixes of one another. -/
theorem not_prefix_of_head_ne {a b : Char} {l₁ l₂ : List Char} (h : ¬ a = b) :
    ¬ (a :: l₁ <+: b :: l₂) := fun hp => h (List.cons_prefix_cons.mp hp).1

/-- Counting occurrences of the marker just after an inserted marker: the
marker matches at position 0, and no occurrence can start inside it. -/
theorem countOcc_marker_cons (X : List Char) :
    countOcc (strOf "job/") (strOf "job/" ++ X) = 1 + countOcc (strOf "job/") X := by
  show countOcc (strOf "job/") ('j' :: 'o' :: 'b' :: '/' :: X)
    = 1 + countOcc (strOf "job/") X
  rw [countOcc, countOcc, countOcc, countOcc]
  rw [if_pos (show strOf "job/" <+: 'j' :: 'o' :: 'b' :: '/' :: X from ⟨X, rfl⟩),
    if_neg (show ¬ (strOf "job/" <+: 'o' :: 'b' :: '/' :: X) from
      not_prefix_of_head_ne (by decide)),
    if_neg (show ¬ (strOf "job/" <+: 'b' :: '/' :: X) from
      not_prefix_of_head_ne (by decide)),
    if_neg (show ¬ (strOf "job/" <+: '/' :: X) from
      not_prefix_of_head_ne (by decide))]
  omega

/-- An occurrence of `job/` starting at the head of a slash-free segment
followed by a separator forces the segment to be exactly `job`. -/
theorem marker_prefix_iff (c : Char) (s t : List Char) (h : '/' ∉ c :: s) :
    (strOf "job/" <+: c :: (s ++ '/' :: t)) ↔ c :: s = strOf "job" := by
  constructor
  · intro hp
    obtain ⟨hc, hp2⟩ := List.cons_prefix_cons.mp hp
    cases hc
    cases s with
    | nil =>
      obtain ⟨h2, _⟩ := List.cons_prefix_cons.mp hp2
      exact absurd h2 (by decide)
    | cons x s1 =>
      obtain ⟨hx, hp3⟩ := List.cons_prefix_cons.mp hp2
      cases hx
      cases s1 with
      | nil =>
        obtain ⟨h3, _⟩ := List.cons_prefix_cons.mp hp3
        exact absurd h3 (by decide)
      | cons y s2 =>
        obtain ⟨hy, hp4⟩ := List.cons_prefix_cons.mp hp3
        cases hy
        cases s2 with
        | nil => rfl
        | cons z s3 =>
          obtain ⟨hz, _⟩ := List.cons_prefix_cons.mp hp4
          cases hz
          exact absurd (by simp : '/' ∈ 'j' :: 'o' :: 'b' :: '/' :: s3) h
  · intro he
    rw [show c :: (s ++ '/' :: t) = (c :: s) ++ '/' :: t from rfl, he]
    exact ⟨t, rfl⟩

/-- Occurrences of `job/` across one slash-free segment and its following
separator: exactly one when the segment ends in the letters `job` (the
segment text and the separator combine into a marker), none otherwise. -/
theorem countOcc_segment :
    ∀ (s t : List Char), '/' ∉ s →
      countOcc (strOf "job/") (s ++ '/' :: t)
        = (if strOf "job" <:+ s then 1 else 0) + countOcc (strOf "job/") t := by
  intro s
  induction s with
  | nil =>
    intro t _
    rw [List.nil_append, countOcc,
      if_neg (show ¬ (strOf "job/" <+: '/' :: t) from not_prefix_of_head_ne (by decide)),
      if_neg (show ¬ (strOf "job" <:+ ([] : List Char)) by decide)]
  | cons c s1 ih =>
    intro t h
    have h1 : '/' ∉ s1 := fun hm => h (List.mem_cons.mpr (Or.inr hm))
    rw [List.cons_append, countOcc, ih t h1]
    by_cases hcs : c :: s1 = strOf "job"
    · rw [if_pos ((marker_prefix_iff c s1 t h).mpr hcs),
        if_pos (show strOf "job" <:+ c :: s1 by rw [hcs]),
        if_neg (show ¬ (strOf "job" <:+ s1) from fun hsf => by
          have h3 := hsf.length_le
          have h4 := congrArg List.length hcs
          have h5 : (strOf "job").length = 3 := rfl
          rw [List.length_cons, h5] at h4
          rw [h5] at h3
          omega)]
      omega
    · rw [if_neg (show ¬ (strOf "job/" <+: c :: (s1 ++ '/' :: t)) from
        fun hp => hcs ((marker_prefix_iff c s1 t h).mp hp))]
      have hiff : (strOf "job" <:+ c :: s1) ↔ (strOf "job" <:+ s1) := by
        constructor
        · intro hsf
          rcases List.suffix_cons_iff.mp hsf with he | hs
          · exact absurd he.symm hcs
          · exact hs
        · intro hs
          exact List.suffix_cons_iff.mpr (Or.inr hs)
      by_cases hsf : strOf "job" <:+ s1
      · rw [if_pos hsf, if_pos (hiff.mpr hsf)]
        omega
      · rw [if_neg hsf, if_neg (show ¬ (strOf "job" <:+ c :: s1) from fun hx => hsf (hiff.mp hx))]
        omega

/-- Occurrences of `job/` in the rendered prefix of a segment list: one per
inserted marker, plus one extra for every segment that ends in the letters
`job`. -/
theorem countOcc_render :
    ∀ segs : List (List Char), (∀ s ∈ segs, '/' ∉ s) →
      countOcc (strOf "job/") ((segs.map (fun s => strOf "job/" ++ s ++ ['/'])).flatten)
        = segs.length + segs.countP (fun s => decide (strOf "job" <:+ s)) := by
  intro segs
  induction segs with
  | nil => intro _; rfl
  | cons s rest ih =>
    intro hv
    have hs : '/' ∉ s := hv s (List.mem_cons_self _ _)
    have hrest : ∀ x ∈ rest, '/' ∉ x := fun x hx => hv x (List.mem_cons.mpr (Or.inr hx))
    rw [List.map_cons, List.flatten_cons]
    have hshape :
        (strOf "job/" ++ s ++ ['/'])
            ++ ((rest.map (fun s => strOf "job/" ++ s ++ ['/'])).flatten)
          = strOf "job/"
              ++ (s ++ '/' :: (rest.map (fun s => strOf "job/" ++ s ++ ['/'])).flatten) := by
      rw [List.append_assoc, List.append_assoc]
      rfl
    rw [hshape, countOcc_marker_cons, countOcc_segment s _ hs, ih hrest,
      List.countP_cons, List.length_cons]
    by_cases hsf : strOf "job" <:+ s <;> simp [hsf] <;> omega

/-- Claim C3 counterexample: the one-segment path `job` renders to the prefix
`job/job/`, in which the literal marker `job/` occurs twice, not once. -/
theorem build_path_marker_count_counterexample :
    rustComponents (strOf "job") = [strOf "job"]
      ∧ ((Tree.new []).build_path (strOf "job")).query = strOf "job/job/"
      ∧ countOcc (strOf "job/") (strOf "job/job/") = 2 := by
  decide

/-- Claim C3 as amended: for every non-empty list of segments that are
non-empty, slash-free and not `.`, converting the joined path produces the
prefix `job/<s1>/job/<s2>/.../job/<sn>/` before the original query — the
segments in original left-to-right order with one inserted marker each — and
the literal substring `job/` occurs in that prefix exactly `n + k` times,
where `k` counts the segments ending in the letters `job` (so exactly `n`
when no segment does). -/
theorem build_path_marker_count (segs : List (List Char)) (q : List Char)
    (hne : segs ≠ [])
    (hvalid : ∀ s ∈ segs, s ≠ [] ∧ '/' ∉ s ∧ s ≠ ['.']) :
    ((Tree.new q).build_path (joinSlash segs)).query
        = (segs.map (fun s => strOf "job/" ++ s ++ ['/'])).flatten ++ q
      ∧ countOcc (strOf "job/") ((segs.map (fun s => strOf "job/" ++ s ++ ['/'])).flatten)
        = segs.length + segs.countP (fun s => decide (strOf "job" <:+ s)) := by
  refine ⟨?_, countOcc_render segs (fun s hs => (hvalid s hs).2.1)⟩
  rw [build_path_eq, components_joinSlash segs hne hvalid]

/-- Claim C3 witness: the two-segment path `dev/app`. -/
theorem build_path_marker_count_witness :
    ((Tree.new []).build_path (joinSlash [strOf "dev", strOf "app"])).query
        = ([strOf "dev", strOf "app"].map (fun s => strOf "job/" ++ s ++ ['/'])).flatten ++ []
      ∧ countOcc (strOf "job/")
          (([strOf "dev", strOf "app"].map (fun s => strOf "job/" ++ s ++ ['/'])).flatten)
        = [strOf "dev", strOf "app"].length
            + [strOf "dev", strOf "app"].countP (fun s => decide (strOf "job" <:+ s)) :=
  build_path_marker_count [strOf "dev", strOf "app"] [] (by decide) (by decide)

/-- A pattern that starts some suffix of `l` is contained in `l`. -/
theorem containsSub_of_prefix_match (pat l : List Char) (h : pat <+: l) :
    containsSub pat l = true := by
  cases l with
  | nil =>
    rw [List.prefix_nil] at h
    rw [h]
    rfl
  | cons c r =>
    rw [containsSub, Bool.or_eq_true]
    exact Or.inl (decide_eq_true h)

/-- Containment is preserved by prepending characters. -/
theorem containsSub_append_of (pat l1 l2 : List Char) (h : containsSub pat l2 = true) :
    containsSub pat (l1 ++ l2) = true := by
  induction l1 with
  | nil => exact h
  | cons x l1 ih =>
    rw [List.cons_append, containsSub, Bool.or_eq_true]
    exact Or.inr ih

/-- A contained pattern occurs at some position. -/
theorem containsSub_exists :
    ∀ (l pat : List Char), containsSub pat l = true → ∃ pre suf, l = pre ++ pat ++ suf := by
  intro l
  induction l with
  | nil =>
    intro pat h
    have hp : pat = [] := by
      cases pat with
      | nil => rfl
      | cons c r => exact absurd h (by rw [containsSub]; simp)
    exact ⟨[], [], by rw [hp]; rfl⟩
  | cons c r ih =>
    intro pat h
    rw [containsSub, Bool.or_eq_true] at h
    rcases h with h | h
    · obtain ⟨t, ht⟩ := of_decide_eq_true h
      exact ⟨[], t, by rw [List.nil_append, ht]⟩
    · obtain ⟨pre, suf, hps⟩ := ih pat h
      exact ⟨c :: pre, suf, by rw [hps]; rfl⟩

/-- A pattern containing a character absent from `l` is not contained in
`l`. -/
theorem containsSub_eq_false_of_not_mem (pat l : List Char) (c : Char)
    (hc : c ∈ pat) (hl : c ∉ l) : containsSub pat l = false := by
  cases hcc : containsSub pat l with
  | false => rfl
  | true =>
    exfalso
    obtain ⟨pre, suf, hps⟩ := containsSub_exists l pat hcc
    exact hl (by
      rw [hps]
      exact List.mem_append.mpr (Or.inl (List.mem_append.mpr (Or.inr hc))))

/-- `split_once` at the first occurrence of the separator. -/
theorem splitOnceChar_append (c : Char) :
    ∀ (a r : List Char), c ∉ a → splitOnceChar c (a ++ c :: r) = some (a, r) := by
  intro a
  induction a with
  | nil => intro r _; rw [List.nil_append, splitOnceChar, if_pos rfl]
  | cons x a1 ih =>
    intro r h
    have hx : ¬ x = c := fun hxc => h (hxc ▸ List.mem_cons_self x a1)
    have ha : c ∉ a1 := fun hm => h (List.mem_cons.mpr (Or.inr hm))
    rw [List.cons_append, splitOnceChar, if_neg hx, ih r ha]
    rfl

/-- `rsplit_once` at the last occurrence of the separator. -/
theorem rsplitOnceChar_append (c : Char) (a b : List Char) (hb : c ∉ b) :
    rsplitOnceChar c (a ++ c :: b) = some (a, b) := by
  rw [rsplitOnceChar]
  have hrev : (a ++ c :: b).reverse = b.reverse ++ c :: a.reverse := by
    simp
  rw [hrev, splitOnceChar_append c _ _ (fun hm => hb (List.mem_reverse.mp hm))]
  simp

/-- `parseU64` accepts every non-empty 64-bit digit string. -/
theorem parseU64_digits (s : List Char) (hne : s ≠ [])
    (hd : ∀ c ∈ s, c.isDigit = true) (hb : digitVal s < 2 ^ 64) :
    parseU64 s = some (digitVal s) := by
  have hhead : ¬ s.head? = some '+' := by
    cases s with
    | nil => simp
    | cons c cs =>
      rw [List.head?_cons]
      intro he
      have hcd := hd c (List.mem_cons_self c cs)
      rw [Option.some_inj.mp he] at hcd
      exact absurd hcd (by decide)
  rw [parseU64, if_neg hhead, parseU64Digits, if_neg hne,
    if_pos (List.all_eq_true.mpr hd), if_pos hb]

/-- Claim C8 as amended: parsing the well-formed literal `a..b` yields
`Range a b` and `a..=b` yields `Range a (b+1)` — the parser performs no
ordering validation — so `end_exclusive > start` holds for the exclusive form
exactly when `b > a`, and for the inclusive form exactly when `b ≥ a`. -/
theorem buildParam_range_characterization (s t : List Char)
    (hs : s ≠ []) (ht : t ≠ [])
    (hds : ∀ c ∈ s, c.isDigit = true) (hdt : ∀ c ∈ t, c.isDigit = true)
    (hbs : digitVal s < 2 ^ 64) (hbt : digitVal t < 2 ^ 64) :
    BuildParam.from_str (s ++ '.' :: '.' :: t)
        = some (.Range (digitVal s) (digitVal t))
      ∧ BuildParam.from_str (s ++ '.' :: '.' :: '=' :: t)
        = some (.Range (digitVal s) (digitVal t + 1))
      ∧ ((BuildParam.Range (digitVal s) (digitVal t)).rangeInvariant
          ↔ digitVal t > digitVal s)
      ∧ ((BuildParam.Range (digitVal s) (digitVal t + 1)).rangeInvariant
          ↔ digitVal t ≥ digitVal s) := by
  have hdots : '.' ∉ s := fun hm => absurd (hds '.' hm) (by decide)
  have hdott : '.' ∉ t := fun hm => absurd (hdt '.' hm) (by decide)
  have heqt : '=' ∉ t := fun hm => absurd (hdt '=' hm) (by decide)
  have hps := parseU64_digits s hs hds hbs
  have hpt := parseU64_digits t ht hdt hbt
  refine ⟨?_, ?_, Iff.rfl, by simp [BuildParam.rangeInvariant, Nat.lt_succ_iff]⟩
  · have hc1 : containsSub (strOf "..") (s ++ '.' :: '.' :: t) = true :=
      containsSub_append_of _ s _ (containsSub_of_prefix_match _ _ ⟨t, rfl⟩)
    have hc2 : containsSub (strOf "..=") (s ++ '.' :: '.' :: t) = false := by
      refine containsSub_eq_false_of_not_mem _ _ '=' (by decide) (fun hm => ?_)
      rcases List.mem_append.mp hm with h1 | h2
      · exact absurd (hds '=' h1) (by decide)
      · rcases List.mem_cons.mp h2 with h3 | h4
        · exact absurd h3 (by decide)
        · rcases List.mem_cons.mp h4 with h5 | h6
          · exact absurd h5 (by decide)
          · exact absurd (hdt '=' h6) (by decide)
    have hsp : splitOnceChar '.' (s ++ '.' :: '.' :: t) = some (s, '.' :: t) :=
      splitOnceChar_append '.' s ('.' :: t) hdots
    have hrs : rsplitOnceChar '.' (s ++ '.' :: '.' :: t) = some (s ++ ['.'], t) := by
      have hshape : s ++ '.' :: '.' :: t = (s ++ ['.']) ++ '.' :: t := by simp
      rw [hshape]
      exact rsplitOnceChar_append '.' (s ++ ['.']) t hdott
    rw [BuildParam.from_str]
    simp [hc1, hc2, hsp, hrs, hps, hpt]
  · have hc3 : containsSub (strOf "..") (s ++ '.' :: '.' :: '=' :: t) = true :=
      containsSub_append_of _ s _ (containsSub_of_prefix_match _ _ ⟨'=' :: t, rfl⟩)
    have hc4 : containsSub (strOf "..=") (s ++ '.' :: '.' :: '=' :: t) = true :=
      containsSub_append_of _ s _ (containsSub_of_prefix_match _ _ ⟨t, rfl⟩)
    have hsp2 : splitOnceChar '.' (s ++ '.' :: '.' :: '=' :: t) = some (s, '.' :: '=' :: t) :=
      splitOnceChar_append '.' s ('.' :: '=' :: t) hdots
    have hre : rsplitOnceChar '=' (s ++ '.' :: '.' :: '=' :: t) = some (s ++ ['.', '.'], t) := by
      have hshape : s ++ '.' :: '.' :: '=' :: t = (s ++ ['.', '.']) ++ '=' :: t := by simp
      rw [hshape]
      exact rsplitOnceChar_append '=' (s ++ ['.', '.']) t heqt
    rw [BuildParam.from_str]
    simp [hc3, hc4, hsp2, hre, hps, hpt]

/-- Claim C8 witness: the literals `2..5` and `2..=5`. -/
theorem buildParam_range_characterization_witness :
    BuildParam.from_str (strOf "2" ++ '.' :: '.' :: strOf "5")
        = some (.Range (digitVal (strOf "2")) (digitVal (strOf "5")))
      ∧ BuildParam.from_str (strOf "2" ++ '.' :: '.' :: '=' :: strOf "5")
        = some (.Range (digitVal (strOf "2")) (digitVal (strOf "5") + 1))
      ∧ ((BuildParam.Range (digitVal (strOf "2")) (digitVal (strOf "5"))).rangeInvariant
          ↔ digitVal (strOf "5") > digitVal (strOf "2"))
      ∧ ((BuildParam.Range (digitVal (strOf "2")) (digitVal (strOf "5") + 1)).rangeInvariant
          ↔ digitVal (strOf "5") ≥ digitVal (strOf "2")) :=
  buildParam_range_characterization (strOf "2") (strOf "5") (by decide) (by decide)
    (by decide) (by decide) (by decide) (by decide)

/-- Claim C2 witness: a 404 status on an empty body collects to `notFound`. -/
theorem get_json_data_notFound_iff_404_witness :
    get_json_data 404 [] = .error .notFound :=
  (get_json_data_notFound_iff_404.1 404 []).mpr rfl

/-- Claim C7 witness: the query `api/json` is left unchanged by an empty
path and prefixed by `job/./` for the path `.`. -/
theorem build_path_empty_and_dot_witness :
    ((Tree.new (strOf "api/json")).build_path []).query = strOf "api/json"
      ∧ ((Tree.new (strOf "api/json")).build_path (strOf ".")).query
        = strOf "job/./" ++ strOf "api/json"
      ∧ ((Tree.new (strOf "api/json")).build_path (strOf "..")).query
        = strOf "job/../" ++ strOf "api/json" :=
  build_path_empty_and_dot (strOf "api/json")

/-- Claim C9 witness: concrete credentials and host. -/
theorem send_request_headers_witness :
    (send_request (bytesOf "admin") (bytesOf "token") (strOf "jenkins.example")
        (some 8080)).authHeader
        = strOf "Basic "
            ++ base64With b64UrlAlphabet (bytesOf "admin" ++ 58 :: bytesOf "token")
      ∧ (send_request (bytesOf "admin") (bytesOf "token") (strOf "jenkins.example")
          (some 8080)).hostHeader
        = strOf "jenkins.example" ++ ':' :: Nat.toDigits 10 ((some 8080).getD 443) :=
  send_request_headers (bytesOf "admin") (bytesOf "token") (strOf "jenkins.example")
    (some 8080)

/-- Claim C10 witness: a response with `x-text-size` absent panics; a poll
whose URL fails to parse returns `None` (the `failed` outcome). -/
theorem get_console_log_panic_iff_missing_header_witness :
    get_console_log_outcome ⟨true, true, none, [], false⟩ = .panicked
      ∧ get_console_log_outcome ⟨false, true, none, [], false⟩ = .failed :=
  ⟨(get_console_log_panic_iff_missing_header ⟨true, true, none, [], false⟩).1.mpr
      ⟨rfl, rfl, rfl⟩,
    (get_console_log_panic_iff_missing_header ⟨false, true, none, [], false⟩).2.1
      (Or.inl rfl)⟩

end Jenkinsctl
